import Mathlib

/-!
Verification of the company-name extraction pipeline of the
`companyfinder_py` repository.

The Python sources are embedded shallowly:

* strings are `String` / `List Char`;
* the `re` module calls are embedded by a small backtracking regex
  interpreter (`RElem`, `matchSeq`, `searchFrom`, `findIterL`) that follows
  Python's leftmost search order, left-first alternation and greedy/lazy
  repetition over character classes, which covers every pattern the
  repository uses;
* specific `re.sub` rewrites (`\s+` collapsing, tag removal, phrase
  removal, word-boundary removal) are embedded as direct recursive
  functions with the same leftmost non-overlapping semantics;
* network access is abstracted by an oracle `fetch : String → Option String`
  mapping a URL to the body `fetch_url` would return (`none` = failure);
  for `fetch_url` itself the per-attempt responses are an oracle
  `Nat → FetchResp`;
* BeautifulSoup's HTML-to-text conversion (`get_text` with the
  script/style/head/nav elements decomposed) is embedded as an explicit
  HTML tokenizer state machine `htmlGo`: character/entity references are
  unescaped, tags are dropped (acting as separators), and the content of
  decomposed elements is skipped up to the matching close tag.
-/

/-! ### Python character predicates and string helpers -/

/-- Python's `\s` class (ASCII part, which is all the repository feeds it). -/
def isWsPy (c : Char) : Bool :=
  c == ' ' || c == '\t' || c == '\n' || c == '\r' || c == '\x0b' || c == '\x0c'

/-- Python's `\w` class (ASCII part): letters, digits and underscore. -/
def isWordCharPy (c : Char) : Bool :=
  c.isAlphanum || c == '_'

/-- The characters stripped by `rstrip('.,;:')`. -/
def isTrailPunct (c : Char) : Bool :=
  c == '.' || c == ',' || c == ';' || c == ':'

/-- Case-insensitive character comparison (`re.IGNORECASE`). -/
def charEqCI (a b : Char) : Bool :=
  a.toLower == b.toLower

/-- Case-sensitive character comparison, for `str.replace`. -/
def charEqCS (a b : Char) : Bool :=
  a == b

/-- `str.lower()`. -/
def lowerL (l : List Char) : List Char :=
  l.map Char.toLower

/-- Does `p` start the list, comparing characters by `ceq`? -/
def prefixBy (ceq : Char → Char → Bool) : List Char → List Char → Bool
  | [], _ => true
  | _ :: _, [] => false
  | p :: ps, c :: cs => ceq p c && prefixBy ceq ps cs

/-- Substring containment by `ceq` (used for `pattern in lower_name`). -/
def containsSubBy (ceq : Char → Char → Bool) (p : List Char) : List Char → Bool
  | [] => prefixBy ceq p []
  | c :: cs => prefixBy ceq p (c :: cs) || containsSubBy ceq p cs

/-- Drop a maximal whitespace suffix (right half of `str.strip()`). -/
def rdropWs : List Char → List Char
  | [] => []
  | c :: cs =>
    match rdropWs cs with
    | [] => if isWsPy c then [] else [c]
    | r => c :: r

/-- Drop a maximal `.,;:` suffix (`str.rstrip('.,;:')`). -/
def rdropPunct : List Char → List Char
  | [] => []
  | c :: cs =>
    match rdropPunct cs with
    | [] => if isTrailPunct c then [] else [c]
    | r => c :: r

/-- `str.strip()`: whitespace removed from both ends. -/
def stripL (l : List Char) : List Char :=
  (rdropWs l).dropWhile isWsPy

/-- `re.sub(r'\s+', ' ', s)`: every maximal whitespace run becomes one space. -/
def collapseWs : List Char → List Char
  | [] => []
  | c :: cs =>
    let r := collapseWs cs
    if isWsPy c then
      if r.head? = some ' ' then r else ' ' :: r
    else c :: r

/-- `re.sub(r'\s+', ' ', s).strip()`, the normalisation the sources apply
after every rewrite step. -/
def stripCollapse (l : List Char) : List Char :=
  stripL (collapseWs l)

/-- One pass of `re.sub(pattern, '', s)` for a plain-text pattern `p`:
leftmost non-overlapping occurrences (compared by `ceq`) are removed.
`fuel` bounds the recursion; callers pass the input length, which is
always sufficient because every step consumes at least one character. -/
def removeSubGen (ceq : Char → Char → Bool) (p : List Char) : Nat → List Char → List Char
  | 0, s => s
  | _, [] => []
  | fuel + 1, c :: cs =>
    if p ≠ [] && prefixBy ceq p (c :: cs) then
      removeSubGen ceq p fuel (cs.drop (p.length - 1))
    else
      c :: removeSubGen ceq p fuel cs

/-- `str.replace(needle, '')` (case-sensitive). -/
def pyRemoveSub (s needle : String) : String :=
  ⟨removeSubGen charEqCS needle.data s.data.length s.data⟩

/-- Scan forward to the first `>` and return what follows it. -/
def afterGt : List Char → Option (List Char)
  | [] => none
  | '>' :: r => some r
  | _ :: r => afterGt r

/-- Helper for `re.sub(r'<[^>]+>', '', s)`: given the characters after a
`<`, return the remainder after a closing `>` when the tag body is
non-empty, i.e. when `<[^>]+>` matches here. -/
def tagSplit : List Char → Option (List Char)
  | [] => none
  | '>' :: _ => none
  | _ :: rest => afterGt rest

/-- `re.sub(r'<[^>]+>', '', s)`: leftmost non-overlapping tag removal. -/
def removeTagsGo : Nat → List Char → List Char
  | 0, s => s
  | _, [] => []
  | fuel + 1, c :: cs =>
    if c = '<' then
      match tagSplit cs with
      | some rest => removeTagsGo fuel rest
      | none => '<' :: removeTagsGo fuel cs
    else
      c :: removeTagsGo fuel cs

def removeTagsL (l : List Char) : List Char :=
  removeTagsGo l.length l

/-- Word-boundary aware removal, `re.sub(r'\bword\b', '', s, re.IGNORECASE)`
for a word consisting of word characters.  `prev` is the character just
before the current scan position in the original string. -/
def removeWordGo (w : List Char) : Nat → Option Char → List Char → List Char
  | 0, _, s => s
  | _, _, [] => []
  | fuel + 1, prev, c :: cs =>
    let boundaryL : Bool :=
      match prev with
      | none => true
      | some p => !isWordCharPy p
    let after := (c :: cs).drop w.length
    let boundaryR : Bool :=
      match after with
      | [] => true
      | d :: _ => !isWordCharPy d
    if w ≠ [] && boundaryL && prefixBy charEqCI w (c :: cs) && boundaryR then
      removeWordGo w fuel (some ((c :: cs).getD (w.length - 1) c)) after
    else
      c :: removeWordGo w fuel (some c) cs

def removeWordCI (w : List Char) (s : List Char) : List Char :=
  removeWordGo w s.length none s

/-- `str.startswith(p)`. -/
def pyStartsWith (s p : String) : Bool :=
  p.data.isPrefixOf s.data

/-- `str.endswith(p)`. -/
def pyEndsWith (s p : String) : Bool :=
  p.data.isSuffixOf s.data

/-- Python truthiness of an `Optional[str]`: `None` and `""` are falsy. -/
def pyTruthyO : Option String → Bool
  | none => false
  | some s => !s.data.isEmpty

/-! ### A small regex interpreter for the repository's patterns

Every pattern the repository compiles repeats only single-character
classes, so the interpreter's repetition node is a bounded repetition of a
character class.  `matchSeq` explores continuations in exactly Python's
order: alternatives left to right, greedy repetitions from the longest
feasible count downwards, lazy repetitions from the shortest upwards; the
first success is returned.  Exactly one capture group occurs per pattern,
tracked by `gopen` / `gclose` markers. -/

inductive RElem where
  | cls (p : Char → Bool) (lo hi : Nat) (greedy : Bool)
  | lit (s : List Char)
  | alt (xs : List (List RElem))
  | gopen
  | gclose

/-- Length of the maximal run of characters satisfying `p`. -/
def runLen (p : Char → Bool) : List Char → Nat
  | [] => 0
  | c :: cs => if p c then runLen p cs + 1 else 0

/-- Match a pattern element sequence at the current position.  Returns the
end position and the capture-group span of the first match found in
Python's backtracking order.  `fuel` bounds the recursion depth. -/
def matchSeq : Nat → List RElem → List Char → Nat → Option Nat → Option Nat →
    Option (Nat × Option Nat × Option Nat)
  | 0, _, _, _, _, _ => none
  | fuel + 1, rs, rest, pos, gs, ge =>
    match rs with
    | [] => some (pos, gs, ge)
    | .gopen :: rs' => matchSeq fuel rs' rest pos (some pos) ge
    | .gclose :: rs' => matchSeq fuel rs' rest pos gs (some pos)
    | .lit l :: rs' =>
      if prefixBy charEqCI l rest then
        matchSeq fuel rs' (rest.drop l.length) (pos + l.length) gs ge
      else none
    | .alt [] :: _ => none
    | .alt (a :: as) :: rs' =>
      match matchSeq fuel (a ++ rs') rest pos gs ge with
      | some r => some r
      | none => matchSeq fuel (.alt as :: rs') rest pos gs ge
    | .cls p lo hi greedy :: rs' =>
      let n := min hi (runLen p rest)
      if lo > n then none
      else if greedy then
        match matchSeq fuel rs' (rest.drop n) (pos + n) gs ge with
        | some r => some r
        | none =>
          if n = 0 then none
          else matchSeq fuel (.cls p lo (n - 1) greedy :: rs') rest pos gs ge
      else
        match matchSeq fuel rs' (rest.drop lo) (pos + lo) gs ge with
        | some r => some r
        | none => matchSeq fuel (.cls p (lo + 1) hi greedy :: rs') rest pos gs ge

/-- Leftmost search: try a match at each successive start position
(`re.search` semantics, used by `finditer` to locate the next match). -/
def searchFrom (r : List RElem) : List Char → Nat → Option (Nat × Nat × Option Nat × Option Nat)
  | [], pos =>
    match matchSeq 2000 r [] pos none none with
    | some (e, gs, ge) => some (pos, e, gs, ge)
    | none => none
  | c :: rest, pos =>
    match matchSeq (1000 * (rest.length + 3)) r (c :: rest) pos none none with
    | some (e, gs, ge) => some (pos, e, gs, ge)
    | none => searchFrom r rest (pos + 1)

/-- Slice `s[a:b]` of a character list. -/
def sliceL (s : List Char) (a b : Nat) : List Char :=
  (s.drop a).take (b - a)

/-- `re.finditer`, collecting `match.group(1)` for every non-overlapping
match from left to right. -/
def findIterGo (r : List RElem) (orig : List Char) : Nat → Nat → List (List Char)
  | 0, _ => []
  | fuel + 1, pos =>
    match searchFrom r (orig.drop pos) pos with
    | none => []
    | some (st, e, gs, ge) =>
      let grp :=
        match gs, ge with
        | some a, some b => sliceL orig a b
        | _, _ => []
      grp :: findIterGo r orig fuel (if st < e then e else st + 1)

def findIterL (r : List RElem) (s : List Char) : List (List Char) :=
  findIterGo r s (s.length + 1) 0

/-! ### The compiled patterns -/

/-- `[A-Z]` under `re.IGNORECASE`: any ASCII letter. -/
def upperCI (c : Char) : Bool := c.isAlpha

/-- The class `[a-zA-Z0-9\s\&\-'.,]` used by `company_name_extractor.py`. -/
def nameCls (c : Char) : Bool :=
  c.isAlphanum || isWsPy c || c == '&' || c == '-' || c == '\'' || c == '.' || c == ','

/-- The narrower class `[a-zA-Z0-9\s\&\-']` used by `domain_analyzer.py`. -/
def daCls (c : Char) : Bool :=
  c.isAlphanum || isWsPy c || c == '&' || c == '-' || c == '\''

def bigN : Nat := 1000000000

def ws1 : RElem := .cls isWsPy 1 bigN true
def ws0 : RElem := .cls isWsPy 0 bigN true
def litCI (s : String) : RElem := .lit s.data
def digit2 : RElem := .cls Char.isDigit 2 2 true
def digits1 : RElem := .cls Char.isDigit 1 bigN true
def anyCh : RElem := .cls (fun _ => true) 0 bigN false
def notGt : RElem := .cls (fun c => !(c == '>')) 0 bigN true
def notQuote : RElem := .cls (fun c => !(c == '"')) 0 bigN true
def quote1 : RElem := .cls (fun c => c == '"' || c == '\'') 1 1 true

/-- `(?:©|copyright|\(c\))\s*(?:20\d{2}(?:-20\d{2})?)\s+`. -/
def copyrightPrefix : List RElem :=
  [.alt [[litCI "©"], [litCI "copyright"], [litCI "(c)"]], ws0,
   litCI "20", digit2, .alt [[litCI "-20", digit2], []], ws1]

/-- `(?:Ltd|Limited|LLC|Inc|Corp|Corporation|GmbH|B\.V\.|Pty\s+Ltd|S\.A\.)`. -/
def suffixAlt : RElem :=
  .alt [[litCI "Ltd"], [litCI "Limited"], [litCI "LLC"], [litCI "Inc"],
        [litCI "Corp"], [litCI "Corporation"], [litCI "GmbH"], [litCI "B.V."],
        [litCI "Pty", ws1, litCI "Ltd"], [litCI "S.A."]]

/-- `([A-Z][cls]+(?:…suffix…))`, the suffixed capture group. -/
def grpSuffixed : List RElem :=
  [.gopen, .cls upperCI 1 1 true, .cls nameCls 1 bigN true, suffixAlt, .gclose]

/-- `([A-Z][cls]{lo,hi})`, the loose capture group. -/
def grpLoose (lo hi : Nat) : List RElem :=
  [.gopen, .cls upperCI 1 1 true, .cls nameCls lo hi true, .gclose]

/-- `([A-Z][cls]+)` without a length cap. -/
def grpPlain : List RElem :=
  [.gopen, .cls upperCI 1 1 true, .cls nameCls 1 bigN true, .gclose]

/-- `(?:Number|No)\.?:?\s+\d+` tail shared by registration and VAT rules. -/
def numberTail : List RElem :=
  [.alt [[litCI "Number"], [litCI "No"]], .cls (fun c => c == '.') 0 1 true,
   .cls (fun c => c == ':') 0 1 true, ws1, digits1]

/-- `\s*[-–]\s*`. -/
def dashSep : List RElem :=
  [ws0, .cls (fun c => c == '-' || c == '–') 1 1 true, ws0]

def extPat1 : List RElem := copyrightPrefix ++ grpSuffixed
def extPat2 : List RElem := copyrightPrefix ++ grpLoose 3 50
def extPat3 : List RElem :=
  [.alt [[litCI "data", ws1, litCI "controller"], [litCI "data", ws1, litCI "processor"],
         [litCI "data", ws1, litCI "owner"]], ws1, litCI "is", ws1] ++ grpSuffixed
def extPat4 : List RElem :=
  [.alt [[litCI "is", ws1, litCI "owned", ws1, litCI "and", ws1, litCI "operated", ws1, litCI "by"],
         [litCI "trading", ws1, litCI "as"], [litCI "t/a"], [litCI "operated", ws1, litCI "by"]],
   ws1] ++ grpSuffixed
def extPat5 : List RElem :=
  [.alt [[litCI "developed"], [litCI "powered"]], ws1, litCI "by", ws1] ++ grpSuffixed
def extPat6 : List RElem :=
  grpSuffixed ++ [ws1, litCI "All", ws1, litCI "rights", ws1, litCI "reserved"]
def extPat7 : List RElem :=
  [.alt [[litCI "Contact"], [litCI "About"]], ws1] ++ grpSuffixed
def extPat8 : List RElem :=
  grpSuffixed ++ [ws1, litCI "is", ws1, litCI "registered", ws1, litCI "at"]
def extPat9 : List RElem :=
  [litCI "Company", ws1, litCI "Registration", ws1] ++ numberTail ++ dashSep ++ grpPlain
def extPat10 : List RElem :=
  grpPlain ++ [ws1, litCI "Company", ws1, litCI "Registration", ws1] ++ numberTail
def extPat11 : List RElem :=
  [litCI "VAT", ws1] ++ numberTail ++ dashSep ++ grpPlain
def extPat12 : List RElem :=
  grpPlain ++ [ws1, litCI "VAT", ws1] ++ numberTail
def extPat13 : List RElem :=
  [litCI "<footer", notGt, litCI ">", anyCh, .gopen, .cls upperCI 1 1 true,
   .cls nameCls 2 50 true, suffixAlt, .gclose, anyCh, litCI "</footer>"]
def extPat14 : List RElem :=
  [litCI "<meta", ws1, litCI "name=", quote1, litCI "author", quote1, notGt,
   litCI "content=", quote1] ++ grpSuffixed ++ [quote1, notGt, litCI ">"]
def extPat15 : List RElem :=
  [litCI "<meta", ws1, litCI "property=", quote1, litCI "og:site_name", quote1, notGt,
   litCI "content=", quote1] ++ grpSuffixed ++ [quote1, notGt, litCI ">"]
def extPat16 : List RElem :=
  [litCI "was", ws1, litCI "founded", ws1, .alt [[litCI "in"], [litCI "by"]], ws1] ++ grpSuffixed
def extPat17 : List RElem :=
  [litCI "welcome", ws1, litCI "to", ws1] ++ grpSuffixed

/-- The 17 `company_patterns` of `CompanyNameExtractor`, in source order. -/
def extractorPatterns : List (List RElem) :=
  [extPat1, extPat2, extPat3, extPat4, extPat5, extPat6, extPat7, extPat8,
   extPat9, extPat10, extPat11, extPat12, extPat13, extPat14, extPat15,
   extPat16, extPat17]

/-- The privacy-policy link patterns `<a[^>]*href="([^"]*KEY[^"]*)"[^>]*>`. -/
def hrefPat (key : String) : List RElem :=
  [litCI "<a", notGt, litCI "href=\"", .gopen, notQuote, litCI key, notQuote, .gclose,
   litCI "\"", notGt, litCI ">"]

/-- The 6 `privacy_policy_patterns` of `CompanyNameExtractor`. -/
def privacyPolicyPatterns : List (List RElem) :=
  [hrefPat "privacy", hrefPat "policy", hrefPat "terms", hrefPat "imprint",
   hrefPat "impressum", hrefPat "legal"]

/-! ### Candidate validation, normalisation and cleaning
(`CompanyNameExtractor._validate_company_name`, `_normalize_company_name`,
`_clean_company_name`) -/

/-- The `suspicious` phrases of `_validate_company_name` (already lowercase). -/
def suspiciousPhrases : List String :=
  ["all rights reserved", "privacy policy", "terms of service", "cookie policy",
   "sitemap", "contact us", "about us"]

/-- `CompanyNameExtractor._validate_company_name`. -/
def validateCompanyName (name : String) : Bool :=
  if name.data.length < 3 then false
  else if !name.data.any Char.isAlpha then false
  else if suspiciousPhrases.any
      (fun p => containsSubBy charEqCS p.data (lowerL name.data)) && name.data.length < 30 then
    false
  else true

/-- The `legal_suffixes` list of `_normalize_company_name`, in source order. -/
def legalSuffixes : List String :=
  ["ltd", "limited", "llc", "inc", "corp", "corporation", "gmbh", "b.v.",
   "pty ltd", "s.a.", "co."]

/-- `CompanyNameExtractor._normalize_company_name`: lowercase, strip a
trailing legal suffix (the loop keeps going over the updated string),
drop punctuation (`[^\w\s]`), collapse whitespace. -/
def normalizeCompanyName (name : String) : String :=
  if name.data.isEmpty then ""
  else
    let n0 := lowerL name.data
    let n1 := legalSuffixes.foldl
      (fun acc suf =>
        if suf.data.isSuffixOf acc then
          stripL (acc.take (acc.length - suf.data.length))
        else acc) n0
    let n2 := n1.filter (fun c => isWordCharPy c || isWsPy c)
    ⟨stripCollapse n2⟩

/-- The `cleanup_phrases` list of `CompanyNameExtractor`, in source order. -/
def cleanupPhrases : List String :=
  ["All Rights Reserved", "Privacy Policy", "Terms of Service",
   "Terms and Conditions", "Home", "About", "Contact", "Copyright", "Website"]

/-- The phrase-removal loop of `_clean_company_name`: each phrase is removed
as a case-insensitive substring (`re.escape(phrase)` with `re.IGNORECASE`). -/
def removePhrasesL (l : List Char) : List Char :=
  cleanupPhrases.foldl (fun acc ph => removeSubGen charEqCI ph.data l.length acc) l

/-- The rewriting pipeline of `_clean_company_name`: tag removal,
whitespace collapse, phrase removal, trailing-punctuation strip, collapse. -/
def cleanCore (l : List Char) : List Char :=
  stripCollapse (rdropPunct (removePhrasesL (stripCollapse (removeTagsL l))))

/-- `CompanyNameExtractor._clean_company_name`.  Returns `none` exactly when
the input is falsy (the empty string); otherwise the cleaned string, which
may itself be empty. -/
def cleanCompanyName (name : String) : Option String :=
  if name.data.isEmpty then none else some ⟨cleanCore name.data⟩

/-! ### Candidate aggregation
(the `counts` dictionary and stable descending sort of
`extract_company_name_from_text`) -/

/-- `counts[k] = counts.get(k, 0) + 1` on an insertion-ordered association
list, the embedding of a Python dict. -/
def bump : List (String × Nat) → String → List (String × Nat)
  | [], k => [(k, 1)]
  | (a, n) :: t, k => if a = k then (a, n + 1) :: t else (a, n) :: bump t k

/-- The counts dict over normalised candidates, keys in first-occurrence
order. -/
def normCounts (cands : List String) : List (String × Nat) :=
  cands.foldl (fun acc c => bump acc (normalizeCompanyName c)) []

/-- The counts dict over the raw candidate strings (used by the analyzers
that do not normalise before counting). -/
def rawCounts (cands : List String) : List (String × Nat) :=
  cands.foldl (fun acc c => bump acc c) []

/-- Stable insertion for a descending sort by count: an element moves past
another only when its count is strictly larger, so `sorted(..., reverse=True)`
order ties by original position, exactly like Python's stable sort. -/
def insertDesc (x : String × Nat) : List (String × Nat) → List (String × Nat)
  | [] => [x]
  | y :: ys => if y.2 ≤ x.2 then x :: y :: ys else y :: insertDesc x ys

/-- `sorted(counts.items(), key=lambda x: x[1], reverse=True)`. -/
def sortDesc (l : List (String × Nat)) : List (String × Nat) :=
  l.foldr insertDesc []

/-- `sorted_candidates[0][0]`: the most frequent key, earliest first
observation winning ties. -/
def bestCandidate (cands : List String) : Option String :=
  match sortDesc (normCounts cands) with
  | [] => none
  | (k, _) :: _ => some k

/-- `sorted_candidates[0][0]` over raw counts, for the other analyzers. -/
def mostCommon (cands : List String) : Option String :=
  match sortDesc (rawCounts cands) with
  | [] => none
  | (k, _) :: _ => some k

/-! ### `CompanyNameExtractor.extract_company_name_from_text` -/

/-- Candidate collection: each pattern in order, each match's stripped
`group(1)`, kept when `_validate_company_name` accepts it. -/
def collectCandidates (pats : List (List RElem)) (text : List Char) : List String :=
  pats.flatMap fun p =>
    ((findIterL p text).map fun g => (⟨stripL g⟩ : String)).filter validateCompanyName

/-- `CompanyNameExtractor.extract_company_name_from_text`: collect validated
candidates, count by normalised form, pick the most frequent normalised
form, clean it. -/
def extractCompanyNameFromText (text : String) : Option String :=
  if text.data.isEmpty then none
  else
    match collectCandidates extractorPatterns text.data with
    | [] => none
    | cands =>
      match bestCandidate cands with
      | none => none
      | some best => cleanCompanyName best

/-! ### HTML to text (`CompanyNameExtractor.extract_text_from_html`)

The source builds a BeautifulSoup tree with the `html.parser` backend,
decomposes `script`/`style`/`head`/`nav` elements, and joins the remaining
text with `get_text(separator=' ')`; entity and character references are
unescaped by the parser.  `htmlGo` embeds that behaviour as a single-pass
tokenizer: plain characters are emitted, the common entity references are
unescaped, a tag emits a single separator space (harmless duplicates are
collapsed afterwards, exactly as the source collapses whitespace), and the
content of a decomposed element is skipped up to its matching close tag. -/

inductive HMode where
  | data
  | tagInside
  | tagName (nameAcc : List Char)
  | tagRest (name : List Char)
  | skipData (name : List Char)
  | skipClose (name : List Char) (closeAcc : List Char)

/-- The elements `extract_text_from_html` decomposes. -/
def decomposedTags : List (List Char) :=
  ["script".data, "style".data, "head".data, "nav".data]

/-- Finish a `<name …>` open tag: enter skip mode for decomposed elements. -/
def afterOpenTag (name : List Char) : HMode :=
  if decomposedTags.contains (lowerL name) then .skipData name else .data

/-- One tokenizer step per unit of fuel; every step consumes at least one
input character, so fuel `length + 1` always finishes the input. -/
def htmlGo : Nat → HMode → List Char → List Char → List Char
  | 0, _, acc, _ => acc
  | _, _, acc, [] => acc
  | fuel + 1, .data, acc, c :: r =>
    if c = '&' then
      match r with
      | 'l' :: 't' :: ';' :: r2 => htmlGo fuel .data (acc ++ ['<']) r2
      | 'g' :: 't' :: ';' :: r2 => htmlGo fuel .data (acc ++ ['>']) r2
      | 'a' :: 'm' :: 'p' :: ';' :: r2 => htmlGo fuel .data (acc ++ ['&']) r2
      | 'q' :: 'u' :: 'o' :: 't' :: ';' :: r2 => htmlGo fuel .data (acc ++ ['"']) r2
      | _ => htmlGo fuel .data (acc ++ ['&']) r
    else if c = '<' then
      match r with
      | '/' :: r2 => htmlGo fuel .tagInside (acc ++ [' ']) r2
      | '!' :: r2 => htmlGo fuel .tagInside (acc ++ [' ']) r2
      | '?' :: r2 => htmlGo fuel .tagInside (acc ++ [' ']) r2
      | d :: r2 =>
        if d.isAlpha then htmlGo fuel (.tagName [d]) (acc ++ [' ']) r2
        else htmlGo fuel .data (acc ++ ['<', d]) r2
      | [] => acc ++ ['<']
    else htmlGo fuel .data (acc ++ [c]) r
  | fuel + 1, .tagInside, acc, c :: r =>
    if c = '>' then htmlGo fuel .data acc r else htmlGo fuel .tagInside acc r
  | fuel + 1, .tagName n, acc, c :: r =>
    if c = '>' then htmlGo fuel (afterOpenTag n) acc r
    else if c.isAlphanum then htmlGo fuel (.tagName (n ++ [c])) acc r
    else htmlGo fuel (.tagRest n) acc r
  | fuel + 1, .tagRest n, acc, c :: r =>
    if c = '>' then htmlGo fuel (afterOpenTag n) acc r else htmlGo fuel (.tagRest n) acc r
  | fuel + 1, .skipData n, acc, c :: r =>
    if c = '<' then
      match r with
      | '/' :: r2 => htmlGo fuel (.skipClose n []) acc r2
      | _ => htmlGo fuel (.skipData n) acc r
    else htmlGo fuel (.skipData n) acc r
  | fuel + 1, .skipClose n m, acc, c :: r =>
    if c.isAlphanum then htmlGo fuel (.skipClose n (m ++ [c])) acc r
    else if lowerL m = lowerL n then
      (if c = '>' then htmlGo fuel .data acc r else htmlGo fuel .tagInside acc r)
    else htmlGo fuel (.skipData n) acc r

/-- `CompanyNameExtractor.extract_text_from_html`: tokenize, then collapse
whitespace and strip. -/
def extractTextFromHtml (html : String) : String :=
  if html.data.isEmpty then ""
  else ⟨stripCollapse (htmlGo (html.data.length + 1) .data [] html.data)⟩

/-! ### URL handling (`CompanyNameExtractor.normalize_url`,
`find_privacy_policy_url`) -/

/-- `base_url.split('#')[0].split('?')[0]`. -/
def baseNoFragQuery (base : List Char) : List Char :=
  (base.takeWhile (fun c => !(c == '#'))).takeWhile (fun c => !(c == '?'))

/-- `CompanyNameExtractor.normalize_url`. -/
def normalizeUrl (baseUrl relativeUrl : String) : String :=
  if pyStartsWith relativeUrl "http://" || pyStartsWith relativeUrl "https://" then
    relativeUrl
  else
    let baseParts := baseNoFragQuery baseUrl.data
    if pyStartsWith relativeUrl "/" then
      let baseParts := if baseParts.getLast? = some '/' then baseParts.dropLast else baseParts
      ⟨baseParts ++ relativeUrl.data⟩
    else
      let baseParts := if baseParts.getLast? = some '/' then baseParts else baseParts ++ ['/']
      ⟨baseParts ++ relativeUrl.data⟩

/-- The `common_policy_paths` of `find_privacy_policy_url`, in source order. -/
def commonPolicyPaths : List String :=
  ["/privacy", "/privacy-policy", "/terms", "/terms-of-service",
   "/terms-and-conditions", "/legal", "/imprint", "/impressum", "/datenschutz"]

/-- The markup-driven half of `find_privacy_policy_url`: every pattern's
matches in order, each `group(1)` href normalised against the base URL. -/
def markupPolicyUrls (baseUrl homepageContent : String) : List String :=
  privacyPolicyPatterns.flatMap fun p =>
    (findIterL p homepageContent.data).map fun h => normalizeUrl baseUrl ⟨h⟩

/-- `CompanyNameExtractor.find_privacy_policy_url`: markup matches first,
then each common path, appended only when its absolute URL is not already
in the list. -/
def findPrivacyPolicyUrl (baseUrl homepageContent : String) : List String :=
  commonPolicyPaths.foldl
    (fun acc path =>
      let u := normalizeUrl baseUrl path
      if u ∈ acc then acc else acc ++ [u])
    (markupPolicyUrls baseUrl homepageContent)

/-! ### `CompanyNameExtractor.fetch_url`

The per-attempt network outcome is an oracle `resp : Nat → FetchResp`
(attempt index ↦ what `requests.get` did).  The loop body mirrors the
source: 200 returns the body, 403 and 404 return `None` immediately, any
other status or exception falls through to the next attempt. -/

inductive FetchResp where
  | response (code : Nat) (body : String)
  | netError
deriving DecidableEq

/-- The retry loop of `fetch_url`; also returns how many requests were
issued. -/
def fetchUrlLoop (resp : Nat → FetchResp) : Nat → Nat → Option String × Nat
  | 0, attempt => (none, attempt)
  | remaining + 1, attempt =>
    match resp attempt with
    | .response code body =>
      if code = 200 then (some body, attempt + 1)
      else if code = 403 then (none, attempt + 1)
      else if code = 404 then (none, attempt + 1)
      else fetchUrlLoop resp remaining (attempt + 1)
    | .netError => fetchUrlLoop resp remaining (attempt + 1)

/-- `fetch_url` with its default `max_retries=3`. -/
def fetchUrl (resp : Nat → FetchResp) : Option String × Nat :=
  fetchUrlLoop resp 3 0

/-- An outcome on which the source retries: an exception or a status other
than 200/403/404. -/
def transientResp : FetchResp → Bool
  | .netError => true
  | .response code _ => !(code = 200 || code = 403 || code = 404)

/-! ### The orchestrators

Each analyzer is parameterised by `fetch : String → Option String`, the
result of its `fetch_url` helper on a given URL (`none` = no content). -/

structure AnalysisResult where
  domain : String
  status : String
  company_name : Option String
deriving DecidableEq

/-- The URL variant list of `CompanyNameExtractor.extract_company_name`
(also `DomainAnalyzer.fetch_homepage` and `PolicyScraperSimple.get_base_url`):
`www.` is prepended for bare domains; nothing is stripped for `www.` ones. -/
def extractorUrls (domain : String) : List String :=
  ([some ("https://" ++ domain), some ("http://" ++ domain),
    if pyStartsWith domain "www." then none else some ("https://www." ++ domain),
    if pyStartsWith domain "www." then none else some ("http://www." ++ domain)]).filterMap id

/-- The URL variant list of `ImprovedAnalyzer.fetch_homepage`: for a `www.`
domain the `www.`-stripped variants are appended instead. -/
def improvedUrls (domain : String) : List String :=
  ([some ("https://" ++ domain), some ("http://" ++ domain),
    if pyStartsWith domain "www." then some ("https://" ++ pyRemoveSub domain "www.") else none,
    if pyStartsWith domain "www." then some ("http://" ++ pyRemoveSub domain "www.") else none,
    if pyStartsWith domain "www." then none else some ("https://www." ++ domain),
    if pyStartsWith domain "www." then none else some ("http://www." ++ domain)]).filterMap id

/-- The homepage loop `for url in urls: content = fetch(url); if content: …`:
first URL whose content is truthy. -/
def fetchFirstTruthy (fetch : String → Option String) : List String → Option (String × String)
  | [] => none
  | u :: us =>
    match fetch u with
    | some c => if c.data.isEmpty then fetchFirstTruthy fetch us else some (u, c)
    | none => fetchFirstTruthy fetch us

/-- The policy-URL loop of `extract_company_name`: try raw content, then
normalised text, return the first truthy extraction. -/
def tryPolicyUrls (fetch : String → Option String) : List String → Option String
  | [] => none
  | u :: us =>
    match fetch u with
    | none => tryPolicyUrls fetch us
    | some c =>
      if c.data.isEmpty then tryPolicyUrls fetch us
      else
        let n1 := extractCompanyNameFromText c
        let n2 := if pyTruthyO n1 then n1 else extractCompanyNameFromText (extractTextFromHtml c)
        if pyTruthyO n2 then n2 else tryPolicyUrls fetch us

/-- `CompanyNameExtractor.extract_company_name`: the result record starts
as `pending`, and every exit path overwrites the status. -/
def extractCompanyName (fetch : String → Option String) (domain : String) : AnalysisResult :=
  let r0 : AnalysisResult := ⟨domain, "pending", none⟩
  match fetchFirstTruthy fetch (extractorUrls domain) with
  | none => { r0 with status := "error" }
  | some (homepageUrl, content) =>
    let n := extractCompanyNameFromText content
    if pyTruthyO n then { r0 with status := "analyzed", company_name := n }
    else
      match tryPolicyUrls fetch (findPrivacyPolicyUrl homepageUrl content) with
      | some s => { r0 with status := "analyzed", company_name := some s }
      | none => { r0 with status := "analyzed" }

/-! ### `DomainAnalyzer` (`domain_analyzer.py`) -/

def daPat1 : List RElem :=
  copyrightPrefix ++ [.gopen, .cls upperCI 1 1 true, .cls daCls 1 bigN true, suffixAlt, .gclose]
def daPat2 : List RElem :=
  copyrightPrefix ++ [.gopen, .cls upperCI 1 1 true, .cls daCls 1 bigN true, .gclose]
def daPat3 : List RElem :=
  [.alt [[litCI "is", ws1, litCI "owned", ws1, litCI "and", ws1, litCI "operated", ws1, litCI "by"],
         [litCI "trading", ws1, litCI "as"], [litCI "t/a"], [litCI "operated", ws1, litCI "by"]],
   ws1, .gopen, .cls upperCI 1 1 true, .cls daCls 1 bigN true, suffixAlt, .gclose]
def daPat4 : List RElem :=
  [.gopen, .cls upperCI 1 1 true, .cls daCls 1 bigN true, suffixAlt, .gclose,
   ws1, litCI "All", ws1, litCI "rights", ws1, litCI "reserved"]

/-- The 4 `company_patterns` of `DomainAnalyzer`. -/
def daPatterns : List (List RElem) :=
  [daPat1, daPat2, daPat3, daPat4]

/-- `DomainAnalyzer.extract_company_name`: candidates validated only by
length ≥ 3 and containing a letter, counted raw, most common returned. -/
def daExtract (text : String) : Option String :=
  if text.data.isEmpty then none
  else
    let cands := daPatterns.flatMap fun p =>
      ((findIterL p text.data).map fun g => (⟨stripL g⟩ : String)).filter
        fun s => 3 ≤ s.data.length && s.data.any Char.isAlpha
    mostCommon cands

/-- `DomainAnalyzer.fetch_homepage`: first URL with a 200 returns its body
immediately (even an empty one). -/
def daFetchHomepage (fetch : String → Option String) : List String → Option String
  | [] => none
  | u :: us =>
    match fetch u with
    | some c => some c
    | none => daFetchHomepage fetch us

/-- `DomainAnalyzer.analyze_domain`. -/
def daAnalyze (fetch : String → Option String) (domain : String) : AnalysisResult :=
  match daFetchHomepage fetch (extractorUrls domain) with
  | none => ⟨domain, "error", none⟩
  | some content =>
    if content.data.isEmpty then ⟨domain, "error", none⟩
    else ⟨domain, "analyzed", daExtract content⟩

/-! ### `ImprovedAnalyzer` (`improved_analyzer.py`) -/

/-- The 8 `company_patterns` of `ImprovedAnalyzer`, textually identical to
the corresponding extractor patterns. -/
def improvedPatterns : List (List RElem) :=
  [extPat1, extPat2, extPat4, extPat5, extPat6, extPat7, extPat8, extPat13]

/-- The `words_to_remove` of `ImprovedAnalyzer.clean_company_name`. -/
def improvedWords : List String :=
  ["home", "contact", "about", "us", "privacy", "policy", "terms",
   "conditions", "cookies", "sitemap", "menu"]

/-- `ImprovedAnalyzer.clean_company_name`: tags out, collapse, whole-word
removal, collapse, `rstrip('.,;:')`, and `None` below 3 characters. -/
def improvedClean (name : String) : Option String :=
  if name.data.isEmpty then none
  else
    let c1 := removeTagsL name.data
    let c2 := stripCollapse c1
    let c3 := improvedWords.foldl (fun acc w => removeWordGo w.data c2.length none acc) c2
    let c4 := stripCollapse c3
    let c5 := rdropPunct c4
    if 3 ≤ c5.length then some ⟨c5⟩ else none

/-- `ImprovedAnalyzer.extract_company_name`: candidates are cleaned before
validation and counted raw. -/
def improvedExtract (text : String) : Option String :=
  if text.data.isEmpty then none
  else
    let cands := improvedPatterns.flatMap fun p =>
      (findIterL p text.data).filterMap fun g =>
        match improvedClean ⟨stripL g⟩ with
        | none => none
        | some c =>
          if !c.data.isEmpty && 3 ≤ c.data.length && c.data.any Char.isAlpha then some c
          else none
    mostCommon cands

/-- The `contact_patterns` of `ImprovedAnalyzer`. -/
def contactPatterns : List (List RElem) :=
  [hrefPat "contact", hrefPat "about-us", hrefPat "impressum", hrefPat "kontakt",
   hrefPat "imprint", hrefPat "about"]

/-- The inline href absolutisation of `ImprovedAnalyzer.find_contact_url`
(root-relative hrefs use the fragment/query-stripped base, other relative
hrefs are joined to the raw base URL, absolute hrefs pass through). -/
def improvedNormalizeHref (baseUrl href : String) : String :=
  if pyStartsWith href "/" then
    let base := baseNoFragQuery baseUrl.data
    if base.getLast? = some '/' then ⟨base ++ href.data.drop 1⟩ else ⟨base ++ href.data⟩
  else if pyStartsWith href "http://" || pyStartsWith href "https://" then href
  else if pyEndsWith baseUrl "/" then baseUrl ++ href
  else baseUrl ++ "/" ++ href

/-- `ImprovedAnalyzer.find_contact_url`: first contact-like link. -/
def findContactUrl (baseUrl content : String) : Option String :=
  if baseUrl.data.isEmpty || content.data.isEmpty then none
  else
    (contactPatterns.flatMap fun p =>
      (findIterL p content.data).map fun h => improvedNormalizeHref baseUrl ⟨h⟩).head?

structure ImprovedResult where
  domain : String
  status : String
  company_name : Option String
  contact_url : Option String
deriving DecidableEq

/-- `ImprovedAnalyzer.analyze_domain`. -/
def improvedAnalyze (fetch : String → Option String) (domain : String) : ImprovedResult :=
  match fetchFirstTruthy fetch (improvedUrls domain) with
  | none => ⟨domain, "error", none, none⟩
  | some (url, content) =>
    ⟨domain, "analyzed", improvedExtract content, findContactUrl url content⟩


/-! ### Lemmas: idempotence of `re.sub(r'\s+',' ',·).strip()` -/

/-- Whitespace characters that survive `collapseWs` are plain spaces. -/
def wsOkC (c : Char) : Bool := !isWsPy c || c == ' '

def allWsSpace (l : List Char) : Bool := l.all wsOkC

/-- No two adjacent whitespace characters. -/
def noWsPair : List Char → Bool
  | [] => true
  | [_] => true
  | c :: d :: cs => !(isWsPy c && isWsPy d) && noWsPair (d :: cs)

/-- Last character (if any) is not whitespace. -/
def lastNotWs : List Char → Bool
  | [] => true
  | [c] => !isWsPy c
  | _ :: c :: cs => lastNotWs (c :: cs)

theorem noWsPair_cons {c : Char} {cs : List Char} (h : noWsPair (c :: cs) = true) :
    noWsPair cs = true := by
  cases cs with
  | nil => rfl
  | cons d t =>
    simp only [noWsPair, Bool.and_eq_true] at h
    exact h.2

theorem headNotWs {e : Char} {t : List Char} (hA : allWsSpace (e :: t) = true)
    (hh : (e :: t : List Char).head? ≠ some ' ') : isWsPy e = false := by
  have he : wsOkC e = true := by
    simp only [allWsSpace, List.all_cons, Bool.and_eq_true] at hA
    exact hA.1
  have hne : e ≠ ' ' := fun hsp => hh (by simp [hsp])
  simp only [wsOkC, Bool.or_eq_true] at he
  rcases he with h1 | h2
  · simpa using h1
  · exact absurd (by simpa using h2) hne

theorem allWsSpace_collapseWs (l : List Char) : allWsSpace (collapseWs l) = true := by
  induction l with
  | nil => rfl
  | cons c cs ih =>
    simp only [collapseWs]
    by_cases hws : isWsPy c
    · simp only [hws, if_true]
      by_cases hh : (collapseWs cs).head? = some ' '
      · simpa [hh] using ih
      · simp only [hh, if_false]
        simpa [allWsSpace, wsOkC] using ih
    · simp only [Bool.not_eq_true] at hws
      simp only [hws, Bool.false_eq_true, if_false]
      simpa [allWsSpace, wsOkC, hws] using ih

theorem noWsPair_collapseWs (l : List Char) : noWsPair (collapseWs l) = true := by
  induction l with
  | nil => rfl
  | cons c cs ih =>
    simp only [collapseWs]
    by_cases hws : isWsPy c
    · simp only [hws, if_true]
      by_cases hh : (collapseWs cs).head? = some ' '
      · simpa [hh] using ih
      · simp only [hh, if_false]
        cases hr : collapseWs cs with
        | nil => rfl
        | cons e t =>
          have hAr := allWsSpace_collapseWs cs
          rw [hr] at hAr ih
          rw [hr] at hh
          have he : isWsPy e = false := headNotWs hAr hh
          simp [noWsPair, he, ih]
    · simp only [Bool.not_eq_true] at hws
      simp only [hws, Bool.false_eq_true, if_false]
      cases hr : collapseWs cs with
      | nil => rfl
      | cons e t =>
        rw [hr] at ih
        simp [noWsPair, hws, ih]

theorem collapseWs_fixed {l : List Char} (hA : allWsSpace l = true)
    (hP : noWsPair l = true) : collapseWs l = l := by
  induction l with
  | nil => rfl
  | cons c cs ih =>
    have hAc : allWsSpace cs = true := by
      simp only [allWsSpace, List.all_cons, Bool.and_eq_true] at hA
      exact hA.2
    have hrec : collapseWs cs = cs := ih hAc (noWsPair_cons hP)
    simp only [collapseWs, hrec]
    by_cases hws : isWsPy c
    · have hcsp : c = ' ' := by
        have hok : wsOkC c = true := by
          simp only [allWsSpace, List.all_cons, Bool.and_eq_true] at hA
          exact hA.1
        simp only [wsOkC, Bool.or_eq_true] at hok
        rcases hok with h1 | h2
        · exact absurd hws (by simpa using h1)
        · simpa using h2
      have hh : cs.head? ≠ some ' ' := by
        cases cs with
        | nil => simp
        | cons e t =>
          simp only [noWsPair, Bool.and_eq_true] at hP
          have h1 := hP.1
          have he : isWsPy e = false := by
            cases hwe : isWsPy e with
            | false => rfl
            | true => rw [hws, hwe] at h1; simp at h1
          intro hcontra
          have : e = ' ' := by simpa using hcontra
          rw [this] at he
          exact absurd he (by decide)
      simp [hws, hh, hcsp]
    · simp only [Bool.not_eq_true] at hws
      simp [hws]

theorem rdropWs_head {d : Char} {cs r : List Char} (h : rdropWs (d :: cs) = r)
    (hne : r ≠ []) : ∃ t, r = d :: t := by
  simp only [rdropWs] at h
  cases hr : rdropWs cs with
  | nil =>
    rw [hr] at h
    by_cases hd : isWsPy d
    · rw [if_pos hd] at h
      exact absurd h.symm hne
    · rw [if_neg hd] at h
      exact ⟨[], h.symm⟩
  | cons e t =>
    rw [hr] at h
    exact ⟨e :: t, h.symm⟩

theorem allWsSpace_sub {c : Char} {cs : List Char}
    (h : allWsSpace (c :: cs) = true) : allWsSpace cs = true := by
  simp only [allWsSpace, List.all_cons, Bool.and_eq_true] at h
  exact h.2

theorem allWsSpace_rdropWs {l : List Char} (h : allWsSpace l = true) :
    allWsSpace (rdropWs l) = true := by
  induction l with
  | nil => rfl
  | cons c cs ih =>
    have hc : wsOkC c = true := by
      simp only [allWsSpace, List.all_cons, Bool.and_eq_true] at h
      exact h.1
    have hr := ih (allWsSpace_sub h)
    simp only [rdropWs]
    cases hcase : rdropWs cs with
    | nil =>
      by_cases hd : isWsPy c
      · simp [hd, allWsSpace]
      · simp [hd, allWsSpace, hc]
    | cons e t =>
      rw [hcase] at hr
      simp only [allWsSpace, List.all_cons, Bool.and_eq_true]
      exact ⟨hc, by simpa [allWsSpace] using hr⟩

theorem allWsSpace_dropWhile {p : Char → Bool} {l : List Char}
    (h : allWsSpace l = true) : allWsSpace (l.dropWhile p) = true := by
  induction l with
  | nil => rfl
  | cons c cs ih =>
    simp only [List.dropWhile]
    cases hp : p c with
    | true => exact ih (allWsSpace_sub h)
    | false => exact h

theorem noWsPair_rdropWs {l : List Char} (h : noWsPair l = true) :
    noWsPair (rdropWs l) = true := by
  induction l with
  | nil => rfl
  | cons c cs ih =>
    have hr := ih (noWsPair_cons h)
    simp only [rdropWs]
    cases hcase : rdropWs cs with
    | nil =>
      by_cases hd : isWsPy c
      · simp [hd, noWsPair]
      · simp [hd, noWsPair]
    | cons e t =>
      rw [hcase] at hr
      cases cs with
      | nil => simp [rdropWs] at hcase
      | cons d cs' =>
        obtain ⟨t', ht⟩ := rdropWs_head hcase (by simp)
        have hed : e = d := by injection ht
        subst hed
        simp only [noWsPair, Bool.and_eq_true] at h ⊢
        exact ⟨h.1, hr⟩

theorem noWsPair_dropWhile {p : Char → Bool} {l : List Char}
    (h : noWsPair l = true) : noWsPair (l.dropWhile p) = true := by
  induction l with
  | nil => rfl
  | cons c cs ih =>
    simp only [List.dropWhile]
    cases hp : p c with
    | true => exact ih (noWsPair_cons h)
    | false => exact h

theorem lastNotWs_rdropWs (l : List Char) : lastNotWs (rdropWs l) = true := by
  induction l with
  | nil => rfl
  | cons c cs ih =>
    simp only [rdropWs]
    cases hcase : rdropWs cs with
    | nil =>
      by_cases hd : isWsPy c
      · simp [hd, lastNotWs]
      · simp [hd, lastNotWs]
    | cons e t =>
      rw [hcase] at ih
      simpa [lastNotWs] using ih

theorem lastNotWs_cons_of {c : Char} {cs : List Char} (hne : cs ≠ [])
    (h : lastNotWs (c :: cs) = true) : lastNotWs cs = true := by
  cases cs with
  | nil => exact absurd rfl hne
  | cons d t => simpa [lastNotWs] using h

theorem lastNotWs_dropWhile {p : Char → Bool} {l : List Char}
    (h : lastNotWs l = true) : lastNotWs (l.dropWhile p) = true := by
  induction l with
  | nil => rfl
  | cons c cs ih =>
    simp only [List.dropWhile]
    cases hp : p c with
    | true =>
      cases cs with
      | nil => rfl
      | cons d t => exact ih (lastNotWs_cons_of (by simp) h)
    | false => exact h

theorem rdropWs_fixed {l : List Char} (h : lastNotWs l = true) : rdropWs l = l := by
  induction l with
  | nil => rfl
  | cons c cs ih =>
    cases cs with
    | nil =>
      simp only [lastNotWs, Bool.not_eq_true'] at h
      simp [rdropWs, h]
    | cons d t =>
      have hrec : rdropWs (d :: t) = d :: t := ih (lastNotWs_cons_of (by simp) h)
      simp only [rdropWs] at hrec ⊢
      rw [hrec]

theorem dropWhile_idem (p : Char → Bool) (l : List Char) :
    (l.dropWhile p).dropWhile p = l.dropWhile p := by
  induction l with
  | nil => rfl
  | cons c cs ih =>
    simp only [List.dropWhile]
    cases hp : p c with
    | true => exact ih
    | false => simp [List.dropWhile, hp]

/-- `re.sub(r'\s+',' ',s).strip()` is idempotent. -/
theorem stripCollapse_idem (l : List Char) :
    stripCollapse (stripCollapse l) = stripCollapse l := by
  have hA : allWsSpace (stripCollapse l) = true := by
    simp only [stripCollapse, stripL]
    exact allWsSpace_dropWhile (allWsSpace_rdropWs (allWsSpace_collapseWs l))
  have hP : noWsPair (stripCollapse l) = true := by
    simp only [stripCollapse, stripL]
    exact noWsPair_dropWhile (noWsPair_rdropWs (noWsPair_collapseWs l))
  have hL : lastNotWs (stripCollapse l) = true := by
    simp only [stripCollapse, stripL]
    exact lastNotWs_dropWhile (lastNotWs_rdropWs (collapseWs l))
  simp only [stripCollapse, stripL] at *
  rw [collapseWs_fixed hA hP, rdropWs_fixed hL, dropWhile_idem]

/-! ### Lemmas: the tokenizer on markup-free text -/

/-- On text without `<` or `&` the tokenizer emits the input verbatim. -/
theorem htmlGo_plain : ∀ (s : List Char) (fuel : Nat) (acc : List Char),
    s.length ≤ fuel → (∀ c ∈ s, c ≠ '<' ∧ c ≠ '&') →
    htmlGo fuel .data acc s = acc ++ s := by
  intro s
  induction s with
  | nil =>
    intro fuel acc _ _
    cases fuel with
    | zero => simp [htmlGo]
    | succ f => simp [htmlGo]
  | cons c cs ih =>
    intro fuel acc hfuel hchars
    cases fuel with
    | zero => simp at hfuel
    | succ f =>
      have hc := hchars c (by simp)
      simp only [htmlGo]
      rw [if_neg hc.2, if_neg hc.1]
      rw [ih f (acc ++ [c]) (by simpa using hfuel) (fun d hd => hchars d (by simp [hd]))]
      simp

/-- `extract_text_from_html` is idempotent on outputs that contain neither
`<` nor `&`. -/
theorem extractTextFromHtml_plain_fixed (y : String)
    (hy : ∀ c ∈ y.data, c ≠ '<' ∧ c ≠ '&')
    (hcol : stripCollapse y.data = y.data) :
    extractTextFromHtml y = y := by
  cases hdata : y.data with
  | nil =>
    simp only [extractTextFromHtml, hdata, List.isEmpty_nil, if_true]
    cases y with
    | mk d => simp at hdata; simp [hdata]
  | cons c cs =>
    have hne : y.data.isEmpty = false := by rw [hdata]; rfl
    simp only [extractTextFromHtml, hne, Bool.false_eq_true, if_false]
    rw [htmlGo_plain y.data (y.data.length + 1) [] (by omega) hy]
    simp only [List.nil_append]
    rw [hcol]

/-! ### Lemmas: stability of the descending count sort -/

theorem sublist_insertDesc (x : String × Nat) : ∀ m, List.Sublist m (insertDesc x m) := by
  intro m
  induction m with
  | nil => exact List.nil_sublist _
  | cons y ys ih =>
    simp only [insertDesc]
    by_cases h : y.2 ≤ x.2
    · rw [if_pos h]
      exact List.Sublist.cons x (List.Sublist.refl _)
    · rw [if_neg h]
      exact List.Sublist.cons₂ y ih

theorem insertDesc_perm (x : String × Nat) : ∀ m, List.Perm (insertDesc x m) (x :: m) := by
  intro m
  induction m with
  | nil => exact List.Perm.refl _
  | cons y ys ih =>
    simp only [insertDesc]
    by_cases h : y.2 ≤ x.2
    · rw [if_pos h]
    · rw [if_neg h]
      exact (List.Perm.cons y ih).trans (List.Perm.swap x y ys)

theorem sortDesc_perm : ∀ l, List.Perm (sortDesc l) l := by
  intro l
  induction l with
  | nil => exact List.Perm.refl _
  | cons c l' ih =>
    have : sortDesc (c :: l') = insertDesc c (sortDesc l') := rfl
    rw [this]
    exact (insertDesc_perm c (sortDesc l')).trans (List.Perm.cons c ih)

theorem pair_sublist_insertDesc {x y : String × Nat} (hyx : y.2 ≤ x.2) :
    ∀ m, y ∈ m → List.Sublist [x, y] (insertDesc x m) := by
  intro m
  induction m with
  | nil => intro hmem; exact absurd hmem (List.not_mem_nil y)
  | cons z zs ih =>
    intro hmem
    simp only [insertDesc]
    by_cases h : z.2 ≤ x.2
    · rw [if_pos h]
      exact List.Sublist.cons₂ x (List.singleton_sublist.mpr hmem)
    · rw [if_neg h]
      rcases List.mem_cons.mp hmem with hz | hz
      · exact absurd (hz ▸ hyx) h
      · exact List.Sublist.cons z (ih hz)

theorem stable_pair {x y : String × Nat} (hyx : y.2 ≤ x.2) :
    ∀ l, List.Sublist [x, y] l → List.Sublist [x, y] (sortDesc l) := by
  intro l
  induction l with
  | nil => intro h; simp at h
  | cons c l' ih =>
    intro h
    have hsort : sortDesc (c :: l') = insertDesc c (sortDesc l') := rfl
    rw [hsort]
    cases h with
    | cons _ h' =>
      exact (ih h').trans (sublist_insertDesc c (sortDesc l'))
    | cons₂ _ h' =>
      have hy : y ∈ sortDesc l' := ((sortDesc_perm l').mem_iff).mpr (List.singleton_sublist.mp h')
      exact pair_sublist_insertDesc hyx (sortDesc l') hy

/-! ### Lemmas: keys of the counts dictionary -/

theorem bump_map_fst (k : String) :
    ∀ acc : List (String × Nat), (bump acc k).map Prod.fst =
      if k ∈ acc.map Prod.fst then acc.map Prod.fst else acc.map Prod.fst ++ [k] := by
  intro acc
  induction acc with
  | nil => simp [bump]
  | cons p t ih =>
    cases p with
    | mk a n =>
      simp only [bump]
      by_cases h : a = k
      · rw [if_pos h]
        simp [h]
      · rw [if_neg h]
        simp only [List.map_cons]
        rw [ih]
        by_cases hk : k ∈ t.map Prod.fst
        · rw [if_pos hk, if_pos (by simp [hk])]
        · rw [if_neg hk, if_neg (by simp [hk, Ne.symm h])]
          simp

theorem bump_keys_nodup {acc : List (String × Nat)} (k : String)
    (h : (acc.map Prod.fst).Nodup) : ((bump acc k).map Prod.fst).Nodup := by
  rw [bump_map_fst]
  by_cases hk : k ∈ acc.map Prod.fst
  · rw [if_pos hk]; exact h
  · rw [if_neg hk]
    rw [List.nodup_append]
    refine ⟨h, List.nodup_singleton k, ?_⟩
    intro a ha hak
    simp only [List.mem_singleton] at hak
    exact hk (hak ▸ ha)

theorem normCounts_keys_nodup (cands : List String) :
    ((normCounts cands).map Prod.fst).Nodup := by
  have : ∀ (cs : List String) (acc : List (String × Nat)),
      (acc.map Prod.fst).Nodup →
      ((cs.foldl (fun acc c => bump acc (normalizeCompanyName c)) acc).map Prod.fst).Nodup := by
    intro cs
    induction cs with
    | nil => intro acc h; exact h
    | cons c cs' ih =>
      intro acc h
      exact ih _ (bump_keys_nodup _ h)
  exact this cands [] (by simp)

/-! ### Lemmas: the deduplicating fallback append of `find_privacy_policy_url` -/

theorem dedupAppend_structure (f : String → String) (paths : List String) :
    ∀ init : List String, ∃ extras,
      paths.foldl (fun acc path => if f path ∈ acc then acc else acc ++ [f path]) init
        = init ++ extras ∧ extras.Nodup ∧ ∀ u ∈ extras, u ∉ init := by
  induction paths with
  | nil =>
    intro init
    exact ⟨[], by simp, List.nodup_nil, by simp⟩
  | cons p ps ih =>
    intro init
    simp only [List.foldl]
    by_cases h : f p ∈ init
    · rw [if_pos h]
      exact ih init
    · rw [if_neg h]
      obtain ⟨extras', heq, hnd, hnotin⟩ := ih (init ++ [f p])
      refine ⟨f p :: extras', ?_, ?_, ?_⟩
      · rw [heq]; simp
      · refine List.Nodup.cons ?_ hnd
        intro hmem
        exact hnotin _ hmem (by simp)
      · intro u hu
        rcases List.mem_cons.mp hu with hu | hu
        · exact hu ▸ h
        · intro hcontra
          exact hnotin u hu (by simp [hcontra])

/-! ### Lemmas: homepage loops under total unreachability -/

theorem fetchFirstTruthy_none {fetch : String → Option String} :
    ∀ urls, (∀ u ∈ urls, fetch u = none) → fetchFirstTruthy fetch urls = none := by
  intro urls
  induction urls with
  | nil => intro _; rfl
  | cons u us ih =>
    intro h
    simp only [fetchFirstTruthy, h u (by simp)]
    exact ih fun v hv => h v (by simp [hv])

theorem daFetchHomepage_none {fetch : String → Option String} :
    ∀ urls, (∀ u ∈ urls, fetch u = none) → daFetchHomepage fetch urls = none := by
  intro urls
  induction urls with
  | nil => intro _; rfl
  | cons u us ih =>
    intro h
    simp only [daFetchHomepage, h u (by simp)]
    exact ih fun v hv => h v (by simp [hv])

/-! ### Lemmas: names returned by the policy-page loop are truthy -/

theorem tryPolicyUrls_truthy {fetch : String → Option String} :
    ∀ urls s, tryPolicyUrls fetch urls = some s → s.data.isEmpty = false := by
  intro urls
  induction urls with
  | nil => intro s h; simp [tryPolicyUrls] at h
  | cons u us ih =>
    intro s h
    simp only [tryPolicyUrls] at h
    cases hf : fetch u with
    | none =>
      rw [hf] at h
      exact ih s h
    | some c =>
      rw [hf] at h
      dsimp only at h
      by_cases hc : c.data.isEmpty
      · rw [if_pos hc] at h
        exact ih s h
      · rw [if_neg hc] at h
        set n1 := extractCompanyNameFromText c with hn1
        set n2 := if pyTruthyO n1 then n1 else extractCompanyNameFromText (extractTextFromHtml c) with hn2
        by_cases ht : pyTruthyO n2
        · rw [if_pos ht] at h
          rw [h] at ht
          simpa [pyTruthyO] using ht
        · rw [if_neg ht] at h
          exact ih s h

/-! ### Claim theorems -/

/-- C3: for every domain where fetching fails on every candidate URL
variant, both `CompanyNameExtractor.extract_company_name` and
`DomainAnalyzer.analyze_domain` return a result with status `"error"` and
`company_name = None` (the embedding is total, so no exception escapes). -/
theorem c3_unreachable (fetch : String → Option String) (domain : String)
    (h : ∀ u ∈ extractorUrls domain, fetch u = none) :
    extractCompanyName fetch domain = ⟨domain, "error", none⟩ ∧
    daAnalyze fetch domain = ⟨domain, "error", none⟩ := by
  constructor
  · unfold extractCompanyName
    rw [fetchFirstTruthy_none _ h]
  · unfold daAnalyze
    rw [daFetchHomepage_none _ h]

theorem c3_unreachable_witness :
    extractCompanyName (fun _ => none) "example.com" = ⟨"example.com", "error", none⟩ ∧
    daAnalyze (fun _ => none) "example.com" = ⟨"example.com", "error", none⟩ :=
  c3_unreachable (fun _ => none) "example.com" (fun _ _ => rfl)

/-- C4 (counterexample): the candidate URL list that
`CompanyNameExtractor.extract_company_name` builds for the domain
`"www.example.org"` contains only the two `www` variants; the
`www`-stripped variant is never tried, contradicting the claim that the
Page Fetcher's list always contains a www-toggled variant. -/
theorem c4_counterexample :
    extractorUrls "www.example.org" = ["https://www.example.org", "http://www.example.org"] ∧
    "https://example.org" ∉ extractorUrls "www.example.org" := by
  constructor
  · decide
  · decide

/-- C4 (amended): only `ImprovedAnalyzer.fetch_homepage` toggles `www.`
both ways (stripping it — via `str.replace` — for `www.` domains,
prepending it otherwise); `CompanyNameExtractor.extract_company_name`
(and `DomainAnalyzer`) only prepend `www.` for bare domains and try no
further variant for `www.` domains. -/
theorem c4_amended (domain : String) :
    (pyStartsWith domain "www." = true →
      improvedUrls domain =
        ["https://" ++ domain, "http://" ++ domain,
         "https://" ++ pyRemoveSub domain "www.", "http://" ++ pyRemoveSub domain "www."] ∧
      extractorUrls domain = ["https://" ++ domain, "http://" ++ domain]) ∧
    (pyStartsWith domain "www." = false →
      improvedUrls domain =
        ["https://" ++ domain, "http://" ++ domain,
         "https://www." ++ domain, "http://www." ++ domain] ∧
      extractorUrls domain =
        ["https://" ++ domain, "http://" ++ domain,
         "https://www." ++ domain, "http://www." ++ domain]) := by
  constructor <;> intro h <;>
    exact ⟨by simp [improvedUrls, h], by simp [extractorUrls, h]⟩

theorem c4_amended_witness :
    improvedUrls "www.example.org" =
      ["https://" ++ "www.example.org", "http://" ++ "www.example.org",
       "https://" ++ pyRemoveSub "www.example.org" "www.",
       "http://" ++ pyRemoveSub "www.example.org" "www."] ∧
    extractorUrls "www.example.org" =
      ["https://" ++ "www.example.org", "http://" ++ "www.example.org"] :=
  (c4_amended "www.example.org").1 (by decide)

/-- Helper: one transient attempt (exception or a status other than
200/403/404) moves `fetch_url` to the next attempt. -/
theorem fetchUrlLoop_transient {resp : Nat → FetchResp} {k a : Nat}
    (h : transientResp (resp a) = true) :
    fetchUrlLoop resp (k + 1) a = fetchUrlLoop resp k (a + 1) := by
  cases hr : resp a with
  | netError => simp [fetchUrlLoop, hr]
  | response c b =>
    rw [hr] at h
    simp only [transientResp, Bool.not_eq_true', Bool.or_eq_false_iff,
      decide_eq_false_iff_not] at h
    simp [fetchUrlLoop, hr, h.1.1, h.1.2, h.2]

/-- C8: `fetch_url` returns a 200 body at once, treats 403/404 as terminal
for the URL with no retry (one request only), and retries any other
status or network failure until the `max_retries=3` attempts are spent. -/
theorem c8_fetch_retry (resp : Nat → FetchResp) :
    (∀ b, resp 0 = .response 200 b → fetchUrl resp = (some b, 1)) ∧
    (∀ c b, (c = 403 ∨ c = 404) → resp 0 = .response c b → fetchUrl resp = (none, 1)) ∧
    ((∀ a, a < 3 → transientResp (resp a) = true) → fetchUrl resp = (none, 3)) := by
  refine ⟨?_, ?_, ?_⟩
  · intro b h
    simp [fetchUrl, fetchUrlLoop, h]
  · intro c b hc h
    rcases hc with hc | hc <;> subst hc <;> simp [fetchUrl, fetchUrlLoop, h]
  · intro h
    unfold fetchUrl
    calc fetchUrlLoop resp 3 0
        = fetchUrlLoop resp 2 1 := @fetchUrlLoop_transient resp 2 0 (h 0 (by omega))
      _ = fetchUrlLoop resp 1 2 := @fetchUrlLoop_transient resp 1 1 (h 1 (by omega))
      _ = fetchUrlLoop resp 0 3 := @fetchUrlLoop_transient resp 0 2 (h 2 (by omega))
      _ = (none, 3) := rfl

theorem c8_fetch_retry_witness :
    fetchUrl (fun _ => .response 200 "ok") = (some "ok", 1) ∧
    fetchUrl (fun _ => .response 404 "gone") = (none, 1) ∧
    fetchUrl (fun _ => .netError) = (none, 3) :=
  ⟨(c8_fetch_retry (fun _ => .response 200 "ok")).1 "ok" rfl,
   (c8_fetch_retry (fun _ => .response 404 "gone")).2.1 404 "gone" (Or.inr rfl) rfl,
   (c8_fetch_retry (fun _ => .netError)).2.2 (fun _ _ => rfl)⟩

/-- C9 (counterexample): for the homepage
`<a href="/privacy-policy">x</a>` the href matches both the `privacy` and
the `policy` link patterns, so `find_privacy_policy_url` returns the same
absolute URL twice — the list is not duplicate-free. -/
theorem c9_counterexample :
    (findPrivacyPolicyUrl "https://e.com" "<a href=\"/privacy-policy\">x</a>").count
        "https://e.com/privacy-policy" = 2 ∧
    ¬ (findPrivacyPolicyUrl "https://e.com" "<a href=\"/privacy-policy\">x</a>").Nodup := by
  constructor
  · decide
  · decide

/-- C9 (amended): the result of `find_privacy_policy_url` is the
markup-driven matches (document order, duplicates possible) followed by
the fallback paths; a fallback path is appended only when its absolute URL
is not already present, so the appended tail is duplicate-free and
disjoint from the markup part. -/
theorem c9_amended (baseUrl homepageContent : String) :
    ∃ extras, findPrivacyPolicyUrl baseUrl homepageContent =
        markupPolicyUrls baseUrl homepageContent ++ extras ∧
      extras.Nodup ∧ ∀ u ∈ extras, u ∉ markupPolicyUrls baseUrl homepageContent := by
  have h := dedupAppend_structure (normalizeUrl baseUrl) commonPolicyPaths
    (markupPolicyUrls baseUrl homepageContent)
  simpa [findPrivacyPolicyUrl] using h

/-- C10: every result of the three analyzers leaves with status
`"analyzed"` or `"error"`; the initial `"pending"` never escapes. -/
theorem c10_status (fetch : String → Option String) (domain : String) :
    ((extractCompanyName fetch domain).status = "analyzed" ∨
      (extractCompanyName fetch domain).status = "error") ∧
    ((improvedAnalyze fetch domain).status = "analyzed" ∨
      (improvedAnalyze fetch domain).status = "error") ∧
    ((daAnalyze fetch domain).status = "analyzed" ∨
      (daAnalyze fetch domain).status = "error") := by
  refine ⟨?_, ?_, ?_⟩
  · unfold extractCompanyName
    cases fetchFirstTruthy fetch (extractorUrls domain) with
    | none => right; rfl
    | some p =>
      cases p with
      | mk url content =>
        dsimp only
        by_cases ht : pyTruthyO (extractCompanyNameFromText content)
        · rw [if_pos ht]
          left; rfl
        · rw [if_neg ht]
          cases tryPolicyUrls fetch (findPrivacyPolicyUrl url content) with
          | some s => left; rfl
          | none => left; rfl
  · unfold improvedAnalyze
    cases fetchFirstTruthy fetch (improvedUrls domain) with
    | none => right; rfl
    | some p =>
      cases p with
      | mk url content => left; rfl
  · unfold daAnalyze
    cases daFetchHomepage fetch (extractorUrls domain) with
    | none => right; rfl
    | some content =>
      dsimp only
      by_cases hc : content.data.isEmpty
      · rw [if_pos hc]
        right; rfl
      · rw [if_neg hc]
        left; rfl

set_option maxHeartbeats 1600000 in
/-- C5 (counterexample): `_clean_company_name` is not idempotent: removing
the phrase `"Home"` from `"HoHomeme"` manufactures a fresh `"Home"`, which
a second cleaning erases. -/
theorem c5_counterexample :
    cleanCompanyName "HoHomeme" = some "Home" ∧
    (cleanCompanyName "HoHomeme").bind cleanCompanyName = some "" ∧
    (cleanCompanyName "HoHomeme").bind cleanCompanyName ≠ cleanCompanyName "HoHomeme" := by
  refine ⟨by decide, by decide, by decide⟩

theorem cleanCompanyName_some {x y : String} (h : cleanCompanyName x = some y) :
    y.data = cleanCore x.data := by
  unfold cleanCompanyName at h
  by_cases hx : x.data.isEmpty
  · rw [if_pos hx] at h
    exact absurd h (by simp)
  · rw [if_neg hx] at h
    have hy := Option.some.inj h
    exact congrArg String.data hy.symm

theorem stripCollapse_cleanCore (l : List Char) :
    stripCollapse (cleanCore l) = cleanCore l := by
  unfold cleanCore
  rw [stripCollapse_idem]

/-- C5 (amended): cleaning is idempotent at every input whose cleaned form
is non-empty, is unchanged by tag removal and by phrase removal, and has
no trailing `.,;:` punctuation (whitespace is already collapsed in every
cleaned form, which the proof derives rather than assumes). -/
theorem c5_amended (x y : String)
    (hclean : cleanCompanyName x = some y)
    (hne : y.data.isEmpty = false)
    (htags : removeTagsL y.data = y.data)
    (hphr : removePhrasesL y.data = y.data)
    (hpunct : rdropPunct y.data = y.data) :
    (cleanCompanyName x).bind cleanCompanyName = cleanCompanyName x := by
  have hcol : stripCollapse y.data = y.data := by
    rw [cleanCompanyName_some hclean, stripCollapse_cleanCore]
  have hcore : cleanCore y.data = y.data := by
    unfold cleanCore
    rw [htags, hcol, hphr, hpunct, hcol]
  rw [hclean]
  show cleanCompanyName y = some y
  unfold cleanCompanyName
  rw [if_neg (by simp [hne]), hcore]

set_option maxHeartbeats 1600000 in
theorem c5_amended_witness :
    cleanCompanyName "Acme Widgets" = some "Acme Widgets" ∧
    (cleanCompanyName "Acme Widgets").bind cleanCompanyName = cleanCompanyName "Acme Widgets" :=
  ⟨by decide,
   c5_amended "Acme Widgets" "Acme Widgets" (by decide) (by decide) (by decide)
     (by decide) (by decide)⟩

set_option maxHeartbeats 1600000 in
/-- C6 (counterexample): `extract_text_from_html` is not idempotent: the
parser unescapes `&lt;nav&gt;hi&lt;/nav&gt;` to the text
`<nav>hi</nav>`, which a second normalisation parses as a `nav` element
and decomposes to the empty string. -/
theorem c6_counterexample :
    extractTextFromHtml "&lt;nav&gt;hi&lt;/nav&gt;" = "<nav>hi</nav>" ∧
    extractTextFromHtml (extractTextFromHtml "&lt;nav&gt;hi&lt;/nav&gt;") = "" ∧
    extractTextFromHtml (extractTextFromHtml "&lt;nav&gt;hi&lt;/nav&gt;")
      ≠ extractTextFromHtml "&lt;nav&gt;hi&lt;/nav&gt;" := by
  refine ⟨by decide, by decide, by decide⟩

/-- C6 (amended): normalisation is idempotent on every input whose
normalised text contains neither `<` nor `&`, i.e. whenever the emitted
text cannot be re-read as markup or an entity reference. -/
theorem c6_amended (x : String)
    (hplain : ∀ c ∈ (extractTextFromHtml x).data, c ≠ '<' ∧ c ≠ '&') :
    extractTextFromHtml (extractTextFromHtml x) = extractTextFromHtml x := by
  apply extractTextFromHtml_plain_fixed _ hplain
  by_cases hx : x.data.isEmpty
  · simp only [extractTextFromHtml, hx, if_true]
    rfl
  · simp only [extractTextFromHtml, hx, Bool.false_eq_true, if_false]
    exact stripCollapse_idem _

theorem c6_amended_witness :
    extractTextFromHtml (extractTextFromHtml "hello  world") = extractTextFromHtml "hello  world" :=
  c6_amended "hello  world" (by decide)

/-- C7: if two distinct normalised candidate forms carry equal counts and
the first one was observed earlier in the scan (i.e. their entries appear
in that order in the insertion-ordered counts dictionary), the later one
is never selected as the best candidate — the stable descending sort keeps
the earlier form in front. -/
theorem c7_tiebreak (cands : List String) (a b : String) (n : Nat)
    (hne : a ≠ b)
    (hsub : List.Sublist [(a, n), (b, n)] (normCounts cands)) :
    bestCandidate cands ≠ some b := by
  intro hbest
  have hsorted : List.Sublist [(a, n), (b, n)] (sortDesc (normCounts cands)) :=
    stable_pair (le_refl n) _ hsub
  have hnd : ((sortDesc (normCounts cands)).map Prod.fst).Nodup := by
    have hperm := (sortDesc_perm (normCounts cands)).map Prod.fst
    exact (hperm.nodup_iff).mpr (normCounts_keys_nodup cands)
  unfold bestCandidate at hbest
  cases hs : sortDesc (normCounts cands) with
  | nil =>
    rw [hs] at hbest
    simp at hbest
  | cons p t =>
    rw [hs] at hbest hsorted hnd
    cases p with
    | mk k m =>
      dsimp only at hbest
      have hk : k = b := by simpa using hbest
      subst hk
      rw [List.map_cons] at hnd
      have hnotin : k ∉ t.map Prod.fst := (List.nodup_cons.mp hnd).1
      have hbn : ((k : String), n) ∈ (k, m) :: t := hsorted.subset (by simp)
      rcases List.mem_cons.mp hbn with hbn | hbn
      · rw [← hbn] at hsorted
        rcases List.sublist_cons_iff.mp hsorted with hcase | ⟨r, hr, _⟩
        · have hmem : ((k : String), n) ∈ t := hcase.subset (by simp)
          exact hnotin (List.mem_map.mpr ⟨(k, n), hmem, rfl⟩)
        · injection hr with h1 _
          exact hne (congrArg Prod.fst h1)
      · exact hnotin (List.mem_map.mpr ⟨(k, n), hbn, rfl⟩)

theorem c7_tiebreak_witness :
    List.Sublist [("alpha", 1), ("beta", 1)] (normCounts ["Alpha Ltd", "Beta Inc"]) ∧
    bestCandidate ["Alpha Ltd", "Beta Inc"] ≠ some "beta" := by
  have hsub : List.Sublist [("alpha", 1), ("beta", 1)] (normCounts ["Alpha Ltd", "Beta Inc"]) := by
    have : normCounts ["Alpha Ltd", "Beta Inc"] = [("alpha", 1), ("beta", 1)] := by decide
    rw [this]
  exact ⟨hsub, c7_tiebreak ["Alpha Ltd", "Beta Inc"] "alpha" "beta" 1 (by decide) hsub⟩

set_option maxHeartbeats 3200000 in
/-- C1 (counterexample): on the text
`"© 2023 Acme Widgets Ltd. All rights reserved."` the pipeline does not
return `"Acme Widgets Ltd"`: what is cleaned and returned is the winning
normalised counting key, which is lowercased with the legal suffix
stripped. -/
theorem c1_counterexample :
    extractCompanyNameFromText "© 2023 Acme Widgets Ltd. All rights reserved."
      ≠ some "Acme Widgets Ltd" := by
  decide

set_option maxHeartbeats 3200000 in
/-- C1 (amended): on that text two validated raw candidates arise —
`"Acme Widgets Ltd"` from the suffixed copyright rule and the whole tail
`"Acme Widgets Ltd. All rights reserved."` from the suffix-free copyright
rule (its 38 characters defeat the `< 30` boilerplate rejection).  They
normalise to distinct keys with one occurrence each, the first-observed
key wins the tie, and the returned company name is the cleaned normalised
key `"acme widgets"` — lowercased, `"Ltd"` stripped — not the raw
candidate. -/
theorem c1_amended :
    collectCandidates extractorPatterns
        "© 2023 Acme Widgets Ltd. All rights reserved.".data
      = ["Acme Widgets Ltd", "Acme Widgets Ltd. All rights reserved."] ∧
    extractCompanyNameFromText "© 2023 Acme Widgets Ltd. All rights reserved."
      = some "acme widgets" := by
  refine ⟨by decide, by decide⟩

set_option maxHeartbeats 1600000 in
/-- C2 (counterexample): a domain whose homepage reads
`"© 2023 Home1 Ltd"` is analysed to `company_name = "1"`: the candidate
normalises to `"home1"`, cleaning removes the phrase `"Home"`, and the
surviving `"1"` is shorter than 3 characters and contains no letter. -/
theorem c2_counterexample :
    (extractCompanyName
        (fun u => if u = "https://h.com" then some "© 2023 Home1 Ltd" else none)
        "h.com").company_name = some "1" ∧
    ("1" : String).length < 3 ∧ ∀ c ∈ ("1" : String).data, ¬ c.isAlpha := by
  refine ⟨by decide, by decide, by decide⟩

/-- C2 (amended): the `company_name` of a `CompanyNameExtractor` analysis
is `None` or a non-empty string — every assignment is guarded by Python
truthiness; the stronger length/letter/boilerplate conditions do not
survive normalisation and cleaning. -/
theorem c2_amended (fetch : String → Option String) (domain : String) (s : String)
    (h : (extractCompanyName fetch domain).company_name = some s) :
    s.data.isEmpty = false := by
  unfold extractCompanyName at h
  cases hf : fetchFirstTruthy fetch (extractorUrls domain) with
  | none =>
    rw [hf] at h
    simp at h
  | some p =>
    cases p with
    | mk url content =>
      rw [hf] at h
      dsimp only at h
      by_cases ht : pyTruthyO (extractCompanyNameFromText content)
      · rw [if_pos ht] at h
        dsimp only at h
        rw [h] at ht
        simpa [pyTruthyO] using ht
      · rw [if_neg ht] at h
        cases htry : tryPolicyUrls fetch (findPrivacyPolicyUrl url content) with
        | some t =>
          rw [htry] at h
          dsimp only at h
          have hts := tryPolicyUrls_truthy _ t htry
          have hts' : t = s := by simpa using h
          rw [← hts']
          exact hts
        | none =>
          rw [htry] at h
          simp at h

set_option maxHeartbeats 1600000 in
theorem c2_amended_witness :
    (extractCompanyName
        (fun u => if u = "https://h.com" then some "© 2023 Home1 Ltd" else none)
        "h.com").company_name = some "1" ∧
    ("1" : String).data.isEmpty = false :=
  ⟨by decide,
   c2_amended (fun u => if u = "https://h.com" then some "© 2023 Home1 Ltd" else none)
     "h.com" "1" (by decide)⟩
